import Mathlib

/-
Verification development for the KeeperMap table engine
(StorageKeeperMap.cpp): a key-value storage engine whose durable state
lives in a ZooKeeper-like coordination service.

The embedding models:
  * the key codec (URL-safe base64 over serialized key bytes),
  * the write path (StorageKeeperMapSink::consume / onFinish),
  * the read path (StorageKeeperMap::read slicing and
    getBySerializedKeys), and
  * the lifecycle operations (isTableValid, dropTable, the constructor
    keys-limit capping).

Keys of the coordination-service tree are modelled as natural numbers
(node names with their linear order), stored states as association
lists from key to value blob.
-/

namespace KeeperMap

/-! ## Association-list primitives

The in-memory buffer of the sink (`std::unordered_map`) and the set of
data nodes under the root path are both modelled as association lists;
only lookup/update semantics are observable. -/

/-- Lookup of the first binding of key `k`. -/
def alookup {K V : Type} [DecidableEq K] : List (K × V) → K → Option V
  | [], _ => none
  | (k0, v0) :: rest, k => if k = k0 then some v0 else alookup rest k

/-- Map assignment `m[k] = v`: replace the binding of `k` if present,
otherwise append a fresh binding (the observable semantics of
`std::unordered_map::operator[]` assignment in `consume`). -/
def upsert {K V : Type} [DecidableEq K] : List (K × V) → K → V → List (K × V)
  | [], k, v => [(k, v)]
  | (k0, v0) :: rest, k, v =>
    if k0 = k then (k, v) :: rest else (k0, v0) :: upsert rest k v

/-! ## Key codec

`StorageKeeperMapSink::consume` builds the node name of a row as
`base64Encode(serializeBinary(primary key column), /*url_encoding*/ true)`
and `getBySerializedKeys` decodes it with `base64Decode(key, true)`.

Modelled from the spec: the implementations of `base64Encode` /
`base64Decode` (Common/Base64) and of the column binary serialization are
not part of the supplied sources; following the spec they are a
"reversible, URL/path-safe text encoding" (URL-safe base64, alphabet
`A-Z a-z 0-9 - _`) applied to the serialized key bytes.  A key value is
represented by its serialized byte string (each byte `< 256`). -/

/-- Bytes (values `< 256`) to base64 sextets (values `< 64`). -/
def b64EncodeSextets : List Nat → List Nat
  | [] => []
  | [a] => [a / 4, a % 4 * 16]
  | [a, b] => [a / 4, a % 4 * 16 + b / 16, b % 16 * 4]
  | a :: b :: c :: rest =>
    a / 4 :: (a % 4 * 16 + b / 16) :: (b % 16 * 4 + c / 64) :: c % 64
      :: b64EncodeSextets rest

/-- Base64 sextets back to bytes (inverse of `b64EncodeSextets` on its
image). -/
def b64DecodeSextets : List Nat → List Nat
  | [] => []
  | [_] => []
  | [x, y] => [x * 4 + y / 16]
  | [x, y, z] => [x * 4 + y / 16, y % 16 * 16 + z / 4]
  | x :: y :: z :: w :: rest =>
    (x * 4 + y / 16) :: (y % 16 * 16 + z / 4) :: (z % 4 * 64 + w)
      :: b64DecodeSextets rest

/-- URL-safe base64 alphabet: `A-Z`, `a-z`, `0-9`, `-`, `_`. -/
def b64Char (n : Nat) : Char :=
  if n < 26 then Char.ofNat (65 + n)
  else if n < 52 then Char.ofNat (97 + (n - 26))
  else if n < 62 then Char.ofNat (48 + (n - 52))
  else if n = 62 then Char.ofNat 45
  else Char.ofNat 95

/-- Value of a character of the URL-safe base64 alphabet. -/
def b64CharVal (c : Char) : Nat :=
  let n := c.toNat
  if 65 ≤ n ∧ n ≤ 90 then n - 65
  else if 97 ≤ n ∧ n ≤ 122 then n - 97 + 26
  else if 48 ≤ n ∧ n ≤ 57 then n - 48 + 52
  else if n = 45 then 62
  else 63

/-- URL-safe base64 encoding of a byte string into a node name. -/
def base64Encode (bytes : List Nat) : List Char :=
  (b64EncodeSextets bytes).map b64Char

/-- URL-safe base64 decoding of a node name back into a byte string. -/
def base64Decode (s : List Char) : List Nat :=
  b64DecodeSextets (s.map b64CharVal)

/-! ## Write path

A row of an insert batch is modelled as a pair of the serialized bytes
of its primary-key column and its (opaque) value blob. -/

/-- Row of an insert batch: serialized primary-key bytes and value blob. -/
abbrev Row := List Nat × Nat

/-- Sink buffer: encoded node name to value blob, as built by
`StorageKeeperMapSink::consume`. -/
abbrev Buffer := List (List Char × Nat)

/-- Model of `StorageKeeperMapSink::consume`: every row of the chunk is
inserted into the buffer under its base64-encoded key, later rows
overriding earlier ones with the same encoded key. -/
def consume (m : Buffer) (rows : List Row) : Buffer :=
  rows.foldl (fun acc r => upsert acc (base64Encode r.1) r.2) m

/-- Value of the last row of the batch whose key encodes to node name
`x`, if any. -/
def lastMatch (x : List Char) : List Row → Option Nat
  | [] => none
  | r :: rest =>
    match lastMatch x rest with
    | some v => some v
    | none => if base64Encode r.1 = x then some r.2 else none

/-- Number of buffered keys that do not yet exist in the stored state
(`new_keys_num` of `onFinish`: keys whose existence check does not
return `ZOK`). -/
def newKeysCount {K V : Type} [DecidableEq K]
    (st buf : List (K × V)) : Nat :=
  (buf.filter (fun q => (alookup st q.1).isNone)).length

/-- Effect of the staged multi-operation transaction: a set request for
every buffered key that exists (overwrite) and a create request for
every buffered key that does not. -/
def applyBatch {K V : Type} [DecidableEq K]
    (st buf : List (K × V)) : List (K × V) :=
  st.map (fun p =>
    match alookup buf p.1 with
    | some v => (p.1, v)
    | none => p)
  ++ buf.filter (fun q => (alookup st q.1).isNone)

/-- Error raised by the write path. -/
inductive WriteError
  | limitExceeded
deriving DecidableEq

/-- Model of `StorageKeeperMapSink::onFinish` against stored state `st`
(the data nodes under the root path, so `st.length` is
`root_stat.numChildren - 1`) with buffered batch `buf` and configured
limit `keysLimit` (`0` meaning unlimited):
  * `current_keys_num` is read only when a limit is configured;
  * each buffered key is staged as set (exists) or create (new);
  * when at least one key is new and a limit is configured and
    `current_keys_num + new_keys_num` exceeds it, the batch errors out
    before the transaction is issued;
  * otherwise the staged operations are applied atomically. -/
def onFinish {K V : Type} [DecidableEq K]
    (st buf : List (K × V)) (keysLimit : Nat) :
    Except WriteError (List (K × V)) :=
  if newKeysCount st buf ≠ 0 ∧ keysLimit ≠ 0 ∧
      (if keysLimit ≠ 0 then st.length else 0) + newKeysCount st buf
        > keysLimit
  then .error .limitExceeded
  else .ok (applyBatch st buf)

/-! ## Read path

Node names are modelled as naturals with their linear order (the code
sorts `std::string` node names lexicographically; only the order
structure matters).  The stored state is an association list from node
name to value blob; the metadata directory appears as one additional
child `meta` of the root path. -/

/-- Removal of adjacent duplicates, keeping the first element of each
run (the semantics of `std::unique` as used after `::sort` in
`StorageKeeperMap::read`). -/
def uniqueAdj : List Nat → List Nat
  | [] => []
  | [a] => [a]
  | a :: b :: rest =>
    if a = b then uniqueAdj (a :: rest) else a :: uniqueAdj (b :: rest)

/-- Sort, then erase adjacent duplicates: the key-set normalization of
`StorageKeeperMap::read`. -/
def sortDedup (l : List Nat) : List Nat :=
  uniqueAdj (List.insertionSort (· ≤ ·) l)

/-- Model of the slicing loop of `StorageKeeperMap::read`: the sorted
deduplicated key set is cut into `min(num_streams, num_keys)` contiguous
slices, slice `t` covering indices
`[num_keys*t/num_threads, num_keys*(t+1)/num_threads)`.  An empty key
set produces no sources. -/
def readSlices (keys : List Nat) (numStreams : Nat) : List (List Nat) :=
  if keys = [] then []
  else
    let l := sortDedup keys
    let n := l.length
    let t := min numStreams n
    (List.range t).map (fun i => (l.take (n * (i + 1) / t)).drop (n * i / t))

/-- Split a list into consecutive chunks of at most `b` elements: the
batching of one source's `generate` loop, which takes up to
`max_block_size` keys per call. -/
def chunksOf (b : Nat) (l : List Nat) : List (List Nat) :=
  if h : b = 0 ∨ l = [] then []
  else l.take b :: chunksOf b (l.drop b)
termination_by l.length
decreasing_by
  rcases l with _ | ⟨x, xs⟩
  · simp at h
  · simp only [List.length_drop, List.length_cons]
    omega

/-- Rows produced by `getBySerializedKeys` without a null map: the key
equal to the metadata node name is skipped (its future is left invalid),
a found key yields the row of its decoded key and stored value, a
missing key yields nothing. -/
def getRows (st : List (Nat × Nat)) (meta : Nat) (ks : List Nat) :
    List (Nat × Nat) :=
  ks.filterMap (fun k =>
    if k = meta then none
    else
      match alookup st k with
      | some v => some (k, v)
      | none => none)

/-- Rows produced by one source over its slice, batch by batch. -/
def sourceRows (st : List (Nat × Nat)) (meta : Nat) (b : Nat)
    (slice : List Nat) : List (Nat × Nat) :=
  ((chunksOf b slice).map (getRows st meta)).flatten

/-- Rows of a full scan: the children of the root path (the metadata
node plus every data node) are sliced and each slice is drained by its
source. -/
def fullScanRows (st : List (Nat × Nat)) (meta : Nat)
    (numStreams maxBlockSize : Nat) : List (Nat × Nat) :=
  ((readSlices (meta :: st.map Prod.fst) numStreams).map
    (sourceRows st meta maxBlockSize)).flatten

/-- Model of `getBySerializedKeys` with a null map: the null map is
first filled with `1` at every position; a found key appends its row and
leaves the entry `1`; a missing key appends a row of column defaults
`(dk, dv)` and sets the entry to `0`; the metadata node name appends no
row and leaves the entry `1`.  Returns (rows, null map). -/
def getWithNulls (st : List (Nat × Nat)) (meta dk dv : Nat) :
    List Nat → List (Nat × Nat) × List Nat
  | [] => ([], [])
  | k :: ks =>
    let rest := getWithNulls st meta dk dv ks
    if k = meta then (rest.1, 1 :: rest.2)
    else
      match alookup st k with
      | some v => ((k, v) :: rest.1, 1 :: rest.2)
      | none => ((dk, dv) :: rest.1, 0 :: rest.2)

/-! ## Lifecycle: validity check, drop protocol, keys-limit capping -/

/-- Coordination-service result codes occurring in this engine. -/
inductive KError
  | ZOK
  | ZNONODE
  | ZNODEEXISTS
  | ZNOTEMPTY
  | ZBADVERSION
  | ZSESSIONEXPIRED
  | ZCONNECTIONLOSS
  | ZOPERATIONTIMEOUT
deriving DecidableEq

/-- Hardware (connectivity) error classification.  Modelled from the
spec: `Coordination::isHardwareError` (IKeeper) is not part of the
supplied sources; the spec calls these the connectivity errors (session
loss, connection loss, operation timeout). -/
def isHardwareError : KError → Bool
  | .ZSESSIONEXPIRED => true
  | .ZCONNECTIONLOSS => true
  | .ZOPERATIONTIMEOUT => true
  | _ => false

/-- Outcome of the check transaction issued by `isTableValid`:
`completed code` when `tryMulti` returns `code` without throwing,
`coordError code` when it throws a `Coordination::Exception` carrying
`code`, `otherError` when it throws any other engine exception. -/
inductive CheckOutcome
  | completed (code : KError)
  | coordError (code : KError)
  | otherError
deriving DecidableEq

/-- Model of `StorageKeeperMap::isTableValid`: if a validity value is
already cached it is returned unchanged; otherwise the check transaction
on the table marker decides it.  A completed transaction caches
`code = ZOK`; a thrown coordination exception is logged and caches
`false` only when it is not a hardware error (a hardware error leaves
the cache empty); any other exception is logged and caches `false`.
The returned value is the new cache content. -/
def isTableValid (cached : Option Bool) (outcome : CheckOutcome) :
    Option Bool :=
  match cached with
  | some b => some b
  | none =>
    match outcome with
    | .completed code => some (decide (code = KError.ZOK))
    | .coordError code => if isHardwareError code then none else some false
    | .otherError => some false

/-- State of the shared metadata subtree when the reclaim procedure
runs: whether the dropped lock node, the dropped marker node and the
metadata directory node exist, and how many children other than the
dropped marker the metadata directory has (e.g. a tables directory
re-created by a racing constructor). -/
structure MetaState where
  lock : Bool
  dropped : Bool
  metaNode : Bool
  otherChildren : Nat
deriving DecidableEq

/-- Result code of the atomic three-operation removal issued by
`dropTable` (remove dropped lock, remove dropped marker, remove metadata
directory): the first operation that cannot be applied decides the code,
and the transaction applies either completely or not at all. -/
def dropMultiCode (s : MetaState) : KError :=
  if !s.lock then .ZNONODE
  else if !s.dropped then .ZNONODE
  else if !s.metaNode then .ZNONODE
  else if s.otherChildren ≠ 0 then .ZNOTEMPTY
  else .ZOK

/-- Faults raised by the reclaim procedure. -/
inductive DropFault
  | logicalError
  | keeperMultiError
deriving DecidableEq

/-- Model of `StorageKeeperMap::dropTable` (the reclaim procedure, run
holding the ephemeral dropped lock), reduced to the outcome of its
atomic removal transaction: `ZOK` removes the whole metadata subtree and
reports completely-removed `true`; `ZNOTEMPTY` is logged and reports
`false` with the state left as it was; `ZNONODE` raises a logical
(internal-consistency) error; any other code raises the generic
multi-operation exception.  The result carries the completely-removed
flag and the state after the call. -/
def dropTable (s : MetaState) : Except DropFault (Bool × MetaState) :=
  match dropMultiCode s with
  | .ZOK => .ok (true, ⟨false, false, false, 0⟩)
  | .ZNOTEMPTY => .ok (false, s)
  | .ZNONODE => .error .logicalError
  | _ => .error .keeperMultiError

/-- Keys limit retained by the constructor: when the operator-wide
config limit (`keeper_map_keys_limit`, `0` meaning unset) is set and the
per-table argument exceeds it, the config limit wins; otherwise the
argument is kept. -/
def effectiveKeysLimit (argLimit configLimit : Nat) : Nat :=
  if configLimit ≠ 0 ∧ argLimit > configLimit then configLimit else argLimit

/-- Write-path finalization as configured by the constructor: the limit
consulted by `onFinish` via `keysLimit()` is the capped one. -/
def onFinishWithConfig {K V : Type} [DecidableEq K]
    (st buf : List (K × V)) (argLimit configLimit : Nat) :
    Except WriteError (List (K × V)) :=
  onFinish st buf (effectiveKeysLimit argLimit configLimit)

/-! ## Helper lemmas: association lists -/

theorem alookup_upsert {K V : Type} [DecidableEq K]
    (m : List (K × V)) (k : K) (v : V) (x : K) :
    alookup (upsert m k v) x = if x = k then some v else alookup m x := by
  induction m with
  | nil => simp [upsert, alookup]
  | cons p rest ih =>
    obtain ⟨k0, v0⟩ := p
    by_cases h : k0 = k <;> by_cases hx : x = k0 <;>
      by_cases hk2 : x = k <;> simp_all [upsert, alookup]

theorem alookup_append {K V : Type} [DecidableEq K]
    (l1 l2 : List (K × V)) (k : K) :
    alookup (l1 ++ l2) k =
      match alookup l1 k with
      | some v => some v
      | none => alookup l2 k := by
  induction l1 with
  | nil => simp [alookup]
  | cons p rest ih =>
    obtain ⟨k0, v0⟩ := p
    by_cases h : k = k0 <;> simp [alookup, h, ih]

theorem alookup_filter_key {K V : Type} [DecidableEq K]
    (l : List (K × V)) (p : K → Bool) (k : K) :
    alookup (l.filter (fun q => p q.1)) k =
      if p k then alookup l k else none := by
  induction l with
  | nil => simp [alookup]
  | cons q rest ih =>
    obtain ⟨k0, v0⟩ := q
    by_cases hp : p k0
    · rw [List.filter_cons_of_pos (by simpa using hp)]
      by_cases hk : k = k0
      · subst hk
        simp [alookup, hp]
      · simp [alookup, hk, ih]
    · rw [List.filter_cons_of_neg (by simpa using hp)]
      by_cases hk : k = k0
      · subst hk
        simp [hp, ih]
      · simp [ih, alookup, hk]

theorem alookup_map_overwrite {K V : Type} [DecidableEq K]
    (st buf : List (K × V)) (k : K) :
    alookup (st.map (fun p =>
        match alookup buf p.1 with
        | some v => (p.1, v)
        | none => p)) k =
      match alookup st k, alookup buf k with
      | some _, some v => some v
      | some v0, none => some v0
      | none, _ => none := by
  induction st with
  | nil => simp [alookup]
  | cons p rest ih =>
    obtain ⟨k0, v0⟩ := p
    by_cases hk : k = k0
    · subst hk
      cases hb : alookup buf k <;> simp [alookup, hb]
    · cases hb : alookup buf k0 <;> simp [alookup, hk, ih, hb]

theorem alookup_applyBatch {K V : Type} [DecidableEq K]
    (st buf : List (K × V)) (k : K) :
    alookup (applyBatch st buf) k =
      match alookup buf k with
      | some v => some v
      | none => alookup st k := by
  unfold applyBatch
  rw [alookup_append, alookup_map_overwrite,
    alookup_filter_key buf (fun x => (alookup st x).isNone) k]
  cases hs : alookup st k <;> cases hb : alookup buf k <;> simp [hs, hb]

theorem consume_lookup (m : Buffer) (rows : List Row) (x : List Char) :
    alookup (consume m rows) x =
      match lastMatch x rows with
      | some v => some v
      | none => alookup m x := by
  induction rows generalizing m with
  | nil => simp [consume, lastMatch]
  | cons r rest ih =>
    show alookup (consume (upsert m (base64Encode r.1) r.2) rest) x = _
    rw [ih]
    cases hl : lastMatch x rest with
    | some v => simp [lastMatch, hl]
    | none =>
      rw [alookup_upsert]
      show _ = match lastMatch x (r :: rest) with
        | some v => some v
        | none => alookup m x
      simp only [lastMatch, hl]
      by_cases hx : x = base64Encode r.1
      · rw [if_pos hx, if_pos hx.symm]
      · rw [if_neg hx, if_neg (fun hh => hx hh.symm)]

theorem newKeysCount_eq_zero {K V : Type} [DecidableEq K]
    (st buf : List (K × V)) (hall : ∀ q ∈ buf, (alookup st q.1).isSome) :
    newKeysCount st buf = 0 := by
  unfold newKeysCount
  rw [List.length_eq_zero, List.filter_eq_nil_iff]
  intro q hq
  have := hall q hq
  simp only [Option.isNone_iff_eq_none]
  intro hnone
  rw [hnone] at this
  simp at this

instance {ε α : Type} [DecidableEq ε] [DecidableEq α] :
    DecidableEq (Except ε α)
  | .ok x, .ok y =>
    if h : x = y then isTrue (by rw [h])
    else isFalse (fun hh => h (Except.ok.inj hh))
  | .error x, .error y =>
    if h : x = y then isTrue (by rw [h])
    else isFalse (fun hh => h (Except.error.inj hh))
  | .ok _, .error _ => isFalse (fun hh => Except.noConfusion hh)
  | .error _, .ok _ => isFalse (fun hh => Except.noConfusion hh)

/-! ## Claim C1 -/

/-- Claim C1, counterexample to the claim as stated: against a table
with limit `1` that already stores two keys `0, 1`, a batch overwriting
the existing key `0` has would-be total `2 + 0 > 1`, yet finalization
does not raise a capacity error — it commits and the stored value of
key `0` changes.  The capacity check of `onFinish` runs only when at
least one buffered key is new. -/
theorem onFinish_overLimit_existing_keys_commits :
    [((0 : Nat), (10 : Nat)), (1, 11)].length
      + newKeysCount [((0 : Nat), (10 : Nat)), (1, 11)] [(0, 99)] > 1 ∧
    onFinish [((0 : Nat), (10 : Nat)), (1, 11)] [(0, 99)] 1
      = Except.ok [(0, 99), (1, 11)] := by decide

/-- Claim C1, amended: if a capacity limit `L` is configured, at least
one buffered key does not already exist, and the current key count plus
the number of new keys exceeds `L`, then finalization raises the
capacity-exceeded error and no state is committed. -/
theorem onFinish_capacity_error (st buf : List (Nat × Nat)) (L : Nat)
    (hL : L ≠ 0) (hnew : newKeysCount st buf ≠ 0)
    (hover : st.length + newKeysCount st buf > L) :
    onFinish st buf L = .error .limitExceeded ∧
      ∀ st', onFinish st buf L ≠ .ok st' := by
  have hcond : newKeysCount st buf ≠ 0 ∧ L ≠ 0 ∧
      (if L ≠ 0 then st.length else 0) + newKeysCount st buf > L := by
    refine ⟨hnew, hL, ?_⟩
    rw [if_pos hL]
    exact hover
  have h : onFinish st buf L = .error .limitExceeded := by
    unfold onFinish
    rw [if_pos hcond]
  exact ⟨h, fun st' hok => by rw [h] at hok; exact Except.noConfusion hok⟩

/-- Witness for `onFinish_capacity_error`: one stored key, two new keys,
limit `2`, would-be total `3 > 2`. -/
theorem onFinish_capacity_error_witness :
    onFinish [((0 : Nat), (1 : Nat))] [(1, 2), (2, 3)] 2
      = Except.error WriteError.limitExceeded :=
  (onFinish_capacity_error [(0, 1)] [(1, 2), (2, 3)] 2
    (by decide) (by decide) (by decide)).1

/-! ## Claim C10 -/

/-- Claim C10: when every buffered key already exists in the store, the
capacity check is skipped entirely and finalization commits the batch,
for every configured limit — even one the current key count already
exceeds. -/
theorem onFinish_all_existing_commits (st buf : List (Nat × Nat)) (L : Nat)
    (hall : ∀ q ∈ buf, (alookup st q.1).isSome) :
    onFinish st buf L = .ok (applyBatch st buf) := by
  have h0 := newKeysCount_eq_zero st buf hall
  unfold onFinish
  rw [if_neg]
  intro hcond
  exact hcond.1 h0

/-- Witness for `onFinish_all_existing_commits`: two stored keys, limit
`1` already exceeded, a batch overwriting one existing key commits. -/
theorem onFinish_all_existing_commits_witness :
    onFinish [((0 : Nat), (1 : Nat)), (1, 2)] [(0, 5)] 1
      = Except.ok (applyBatch [((0 : Nat), (1 : Nat)), (1, 2)] [(0, 5)]) :=
  onFinish_all_existing_commits [(0, 1), (1, 2)] [(0, 5)] 1 (by decide)

/-! ## Claim C5 -/

/-- Claim C5: duplicate keys within one batch are not an error — with
the default unlimited configuration finalization always commits — and
whenever finalization commits, the value stored under a node name is
the value of the last row of the batch that encodes to it. -/
theorem last_write_wins (st : Buffer) (rows : List Row) (L : Nat)
    (x : List Char) (v : Nat) (hlast : lastMatch x rows = some v) :
    (∀ st', onFinish st (consume [] rows) L = .ok st' →
      alookup st' x = some v) ∧
    (L = 0 → onFinish st (consume [] rows) L
      = .ok (applyBatch st (consume [] rows))) := by
  have hbuf : alookup (consume [] rows) x = some v := by
    rw [consume_lookup, hlast]
  constructor
  · intro st' hok
    have hst : st' = applyBatch st (consume [] rows) := by
      unfold onFinish at hok
      by_cases hc : newKeysCount st (consume [] rows) ≠ 0 ∧ L ≠ 0 ∧
          (if L ≠ 0 then st.length else 0)
            + newKeysCount st (consume [] rows) > L
      · rw [if_pos hc] at hok
        exact Except.noConfusion hok
      · rw [if_neg hc] at hok
        exact (Except.ok.inj hok).symm
    rw [hst, alookup_applyBatch, hbuf]
  · intro h0
    unfold onFinish
    rw [if_neg]
    intro hcond
    exact hcond.2.1 h0

/-- Witness for `last_write_wins`: a batch writing the key byte string
`[1]` twice, first value `10` then value `20`, against an empty
uncapped table; after commit the stored value is `20`. -/
theorem last_write_wins_witness :
    onFinish [] (consume [] [([1], 10), ([1], 20)]) 0
      = Except.ok (applyBatch ([] : Buffer) (consume [] [([1], 10), ([1], 20)])) :=
  (last_write_wins [] [([1], 10), ([1], 20)] 0
    (base64Encode [1]) 20 (by decide)).2 rfl

/-! ## Claim C7 -/

/-- Claim C7, counterexample to the claim as stated: a connectivity
(hardware) error during the first validity check leaves the cached
validity empty (`none`), not `false` — the check is not cached and runs
again on the next call. -/
theorem isTableValid_hw_error_not_false :
    isTableValid none (CheckOutcome.coordError KError.ZCONNECTIONLOSS) = none ∧
    isTableValid none (CheckOutcome.coordError KError.ZCONNECTIONLOSS)
      ≠ some false := by decide

/-- Claim C7, amended: once a validity value is cached every later call
returns it unchanged; on the first call a completed check transaction
caches whether it returned `ZOK`; a coordination exception leaves the
validity unset when it is a hardware (connectivity) error and `false`
otherwise; any other unexpected error leaves it `false`. -/
theorem isTableValid_spec (c : KError) (b : Bool) (o : CheckOutcome)
    (code : KError) :
    isTableValid none (.coordError c)
      = (if isHardwareError c then none else some false) ∧
    isTableValid none .otherError = some false ∧
    isTableValid (some b) o = some b ∧
    isTableValid none (.completed code)
      = some (decide (code = KError.ZOK)) :=
  ⟨rfl, rfl, rfl, rfl⟩

/-! ## Claim C8 -/

/-- Claim C8: the atomic removal transaction of the reclaim procedure
has exactly three outcomes — `ZOK` reports completely-removed `true`
with the metadata subtree gone, `ZNOTEMPTY` reports `false` without
raising and leaves the state untouched, and `ZNONODE` raises the
unrecoverable internal-consistency (logical) error; no other result
code is reachable. -/
theorem dropTable_outcomes (s : MetaState) :
    (dropMultiCode s = .ZOK →
      dropTable s = .ok (true, ⟨false, false, false, 0⟩)) ∧
    (dropMultiCode s = .ZNOTEMPTY → dropTable s = .ok (false, s)) ∧
    (dropMultiCode s = .ZNONODE →
      dropTable s = .error .logicalError) ∧
    (dropMultiCode s = .ZOK ∨ dropMultiCode s = .ZNOTEMPTY ∨
      dropMultiCode s = .ZNONODE) := by
  refine ⟨fun h => by simp [dropTable, h],
    fun h => by simp [dropTable, h],
    fun h => by simp [dropTable, h], ?_⟩
  obtain ⟨lk, dr, mn, oc⟩ := s
  cases lk <;> cases dr <;> cases mn <;> simp [dropMultiCode] <;> omega

/-- Witness for `dropTable_outcomes`: with lock, dropped marker and
metadata node all present and no extra children, reclaim fully removes
the subtree and reports `true`. -/
theorem dropTable_outcomes_witness :
    dropTable ⟨true, true, true, 0⟩
      = Except.ok (true, (⟨false, false, false, 0⟩ : MetaState)) :=
  (dropTable_outcomes ⟨true, true, true, 0⟩).1 (by decide)

/-! ## Claim C9 -/

/-- Claim C9: when an operator-wide maximum capacity limit is configured
and the per-table limit exceeds it, the effective limit kept by the
constructor is the operator maximum, and the write path finalizes
against that capped limit. -/
theorem keysLimit_config_wins (a c : Nat) (hc : c ≠ 0) (h : a > c) :
    effectiveKeysLimit a c = c ∧
    ∀ (st buf : List (Nat × Nat)),
      onFinishWithConfig st buf a c = onFinish st buf c := by
  have he : effectiveKeysLimit a c = c := if_pos ⟨hc, h⟩
  exact ⟨he, fun st buf => by unfold onFinishWithConfig; rw [he]⟩

/-- Witness for `keysLimit_config_wins`: per-table limit `5` against
operator maximum `3` is capped to `3`. -/
theorem keysLimit_config_wins_witness : effectiveKeysLimit 5 3 = 3 :=
  (keysLimit_config_wins 5 3 (by decide) (by decide)).1

/-! ## Helper lemmas: base64 codec -/

theorem b64_sextets_roundtrip :
    ∀ (l : List Nat), (∀ x ∈ l, x < 256) →
      b64DecodeSextets (b64EncodeSextets l) = l
  | [], _ => rfl
  | [a], h => by
    have ha : a < 256 := h a (by simp)
    simp only [b64EncodeSextets, b64DecodeSextets, List.cons.injEq, and_true]
    omega
  | [a, b], h => by
    have ha : a < 256 := h a (by simp)
    have hb : b < 256 := h b (by simp)
    simp only [b64EncodeSextets, b64DecodeSextets, List.cons.injEq, and_true]
    omega
  | a :: b :: c :: rest, h => by
    have ha : a < 256 := h a (by simp)
    have hb : b < 256 := h b (by simp)
    have hc : c < 256 := h c (by simp)
    have ih := b64_sextets_roundtrip rest
      (fun x hx => h x (by simp [hx]))
    simp only [b64EncodeSextets, b64DecodeSextets, List.cons.injEq]
    refine ⟨by omega, by omega, by omega, ih⟩

theorem b64_sextets_lt :
    ∀ (l : List Nat), (∀ x ∈ l, x < 256) →
      ∀ s ∈ b64EncodeSextets l, s < 64
  | [], _ => by simp [b64EncodeSextets]
  | [a], h => by
    have ha : a < 256 := h a (by simp)
    simp only [b64EncodeSextets, List.mem_cons, List.not_mem_nil, or_false]
    rintro s (rfl | rfl) <;> omega
  | [a, b], h => by
    have ha : a < 256 := h a (by simp)
    have hb : b < 256 := h b (by simp)
    simp only [b64EncodeSextets, List.mem_cons, List.not_mem_nil, or_false]
    rintro s (rfl | rfl | rfl) <;> omega
  | a :: b :: c :: rest, h => by
    have ha : a < 256 := h a (by simp)
    have hb : b < 256 := h b (by simp)
    have hc : c < 256 := h c (by simp)
    have ih := b64_sextets_lt rest (fun x hx => h x (by simp [hx]))
    simp only [b64EncodeSextets, List.mem_cons]
    rintro s (rfl | rfl | rfl | rfl | hs)
    · omega
    · omega
    · omega
    · omega
    · exact ih s hs

theorem b64CharVal_b64Char : ∀ n, n < 64 → b64CharVal (b64Char n) = n := by
  decide

theorem map_b64Char_roundtrip :
    ∀ (l : List Nat), (∀ s ∈ l, s < 64) →
      (l.map b64Char).map b64CharVal = l
  | [], _ => rfl
  | s :: rest, h => by
    have hs := b64CharVal_b64Char s (h s (by simp))
    have ih := map_b64Char_roundtrip rest (fun x hx => h x (by simp [hx]))
    simp only [List.map_cons, List.cons.injEq]
    exact ⟨hs, ih⟩

/-! ## Claim C2 -/

/-- Claim C2: for every legal key value (represented by its serialized
byte string), decoding the node name produced by encoding it yields the
key back, and the encoding is injective on legal key values. -/
theorem decodeKey_encodeKey (k k2 : List Nat)
    (h : ∀ x ∈ k, x < 256) (h2 : ∀ x ∈ k2, x < 256) :
    base64Decode (base64Encode k) = k ∧
    (base64Encode k = base64Encode k2 → k = k2) := by
  have hr : ∀ (l : List Nat), (∀ x ∈ l, x < 256) →
      base64Decode (base64Encode l) = l := fun l hl => by
    unfold base64Encode base64Decode
    rw [map_b64Char_roundtrip _ (b64_sextets_lt l hl),
      b64_sextets_roundtrip l hl]
  refine ⟨hr k h, fun he => ?_⟩
  calc k = base64Decode (base64Encode k) := (hr k h).symm
    _ = base64Decode (base64Encode k2) := by rw [he]
    _ = k2 := hr k2 h2

/-- Witness for `decodeKey_encodeKey`: the three-byte key
`[104, 5, 255]` round-trips through the codec. -/
theorem decodeKey_encodeKey_witness :
    base64Decode (base64Encode [104, 5, 255]) = [104, 5, 255] :=
  (decodeKey_encodeKey [104, 5, 255] [] (by decide) (by decide)).1

/-! ## Helper lemmas: sorting, dedup and slicing of the read path -/

theorem mem_uniqueAdj : ∀ (l : List Nat) (x : Nat), x ∈ uniqueAdj l ↔ x ∈ l
  | [], x => by simp [uniqueAdj]
  | [a], x => by simp [uniqueAdj]
  | a :: b :: rest, x => by
    by_cases h : a = b
    · rw [uniqueAdj, if_pos h, mem_uniqueAdj (a :: rest) x]
      subst h
      simp only [List.mem_cons]
      tauto
    · rw [uniqueAdj, if_neg h]
      simp only [List.mem_cons, mem_uniqueAdj (b :: rest) x,
        List.mem_cons]
termination_by l _ => l.length

theorem sorted_uniqueAdj :
    ∀ (l : List Nat), l.Sorted (· ≤ ·) → (uniqueAdj l).Sorted (· ≤ ·)
  | [], _ => by simp [uniqueAdj]
  | [a], _ => by simp [uniqueAdj]
  | a :: b :: rest, h => by
    by_cases hab : a = b
    · rw [uniqueAdj, if_pos hab]
      apply sorted_uniqueAdj (a :: rest)
      subst hab
      exact (List.sorted_cons.mp h).2
    · rw [uniqueAdj, if_neg hab]
      rw [List.sorted_cons] at h ⊢
      obtain ⟨h1, h2⟩ := h
      refine ⟨?_, sorted_uniqueAdj (b :: rest) h2⟩
      intro x hx
      exact h1 x ((mem_uniqueAdj (b :: rest) x).mp hx)
termination_by l _ => l.length

theorem nodup_uniqueAdj :
    ∀ (l : List Nat), l.Sorted (· ≤ ·) → (uniqueAdj l).Nodup
  | [], _ => by simp [uniqueAdj]
  | [a], _ => by simp [uniqueAdj]
  | a :: b :: rest, h => by
    by_cases hab : a = b
    · rw [uniqueAdj, if_pos hab]
      apply nodup_uniqueAdj (a :: rest)
      subst hab
      exact (List.sorted_cons.mp h).2
    · rw [uniqueAdj, if_neg hab]
      rw [List.nodup_cons]
      rw [List.sorted_cons] at h
      obtain ⟨h1, h2⟩ := h
      refine ⟨?_, nodup_uniqueAdj (b :: rest) h2⟩
      rw [mem_uniqueAdj]
      intro hx
      rcases List.mem_cons.mp hx with h3 | h3
      · exact hab h3
      · have hba : b ≤ a := (List.sorted_cons.mp h2).1 a h3
        have hab2 : a ≤ b := h1 b (by simp)
        exact hab (le_antisymm hab2 hba)
termination_by l _ => l.length

theorem uniqueAdj_eq_self : ∀ (l : List Nat), l.Nodup → uniqueAdj l = l
  | [], _ => by simp [uniqueAdj]
  | [a], _ => by simp [uniqueAdj]
  | a :: b :: rest, h => by
    have hab : a ≠ b := by
      rw [List.nodup_cons] at h
      exact fun he => h.1 (by simp [he])
    rw [uniqueAdj, if_neg hab,
      uniqueAdj_eq_self (b :: rest) (List.nodup_cons.mp h).2]

theorem sortDedup_sorted (l : List Nat) : (sortDedup l).Sorted (· ≤ ·) :=
  sorted_uniqueAdj _ (List.sorted_insertionSort _ l)

theorem sortDedup_nodup (l : List Nat) : (sortDedup l).Nodup :=
  nodup_uniqueAdj _ (List.sorted_insertionSort _ l)

theorem mem_sortDedup (l : List Nat) (x : Nat) : x ∈ sortDedup l ↔ x ∈ l := by
  rw [sortDedup, mem_uniqueAdj]
  exact (List.perm_insertionSort _ l).mem_iff

theorem sortDedup_perm_of_nodup (l : List Nat) (h : l.Nodup) :
    (sortDedup l).Perm l := by
  rw [sortDedup,
    uniqueAdj_eq_self _ ((List.perm_insertionSort (· ≤ ·) l).nodup_iff.mpr h)]
  exact List.perm_insertionSort _ l

theorem sortDedup_ne_nil (l : List Nat) (h : l ≠ []) : sortDedup l ≠ [] := by
  intro he
  rcases List.exists_mem_of_ne_nil l h with ⟨x, hx⟩
  have := (mem_sortDedup l x).mpr hx
  rw [he] at this
  exact List.not_mem_nil x this

theorem take_drop_glue (l : List Nat) (m M : Nat) (h : m ≤ M) :
    l.take m ++ (l.take M).drop m = l.take M := by
  conv_rhs => rw [← List.take_append_drop m (l.take M)]
  rw [List.take_take, Nat.min_eq_left h]

theorem slices_flatten (l : List Nat) (t : Nat) (ht : 0 < t) :
    ((List.range t).map
      (fun i => (l.take (l.length * (i + 1) / t)).drop (l.length * i / t))).flatten
      = l := by
  suffices hsuf : ∀ k, k ≤ t →
      ((List.range k).map
        (fun i => (l.take (l.length * (i + 1) / t)).drop (l.length * i / t))).flatten
        = l.take (l.length * k / t) by
    have := hsuf t le_rfl
    rwa [Nat.mul_div_cancel _ ht, List.take_length] at this
  intro k hk
  induction k with
  | zero => simp
  | succ k ih =>
    rw [List.range_succ, List.map_append, List.flatten_append,
      ih (by omega)]
    simp only [List.map_cons, List.map_nil, List.flatten_cons,
      List.flatten_nil, List.append_nil]
    exact take_drop_glue l _ _
      (Nat.div_le_div_right (Nat.mul_le_mul le_rfl (by omega)))

theorem slice_size_bounds (n t i : Nat) (ht : 0 < t) :
    n / t ≤ n * (i + 1) / t - n * i / t ∧
    n * (i + 1) / t - n * i / t ≤ n / t + 1 := by
  have key : n * (i + 1) / t = n * i / t + (n * i % t + n) / t := by
    have h1 : n * (i + 1) = t * (n * i / t) + (n * i % t + n) := by
      have hdm := Nat.div_add_mod (n * i) t
      have h2 : n * (i + 1) = n * i + n := by ring
      omega
    rw [h1, Nat.mul_add_div ht]
  have upper : (n * i % t + n) / t ≤ n / t + 1 := by
    have hX : n * i % t < t := Nat.mod_lt _ ht
    have hlt : (n * i % t + n) / t < n / t + 2 := by
      rw [Nat.div_lt_iff_lt_mul ht]
      have hn := Nat.div_add_mod n t
      have hnt : n % t < t := Nat.mod_lt _ ht
      have hexp : (n / t + 2) * t = t * (n / t) + 2 * t := by ring
      omega
    omega
  have lower : n / t ≤ (n * i % t + n) / t :=
    Nat.div_le_div_right (Nat.le_add_left n _)
  rw [key, Nat.add_sub_cancel_left]
  exact ⟨lower, upper⟩

theorem slice_bound_le (n t i : Nat) (ht : 0 < t) (hi : i < t) :
    n * (i + 1) / t ≤ n := by
  have h1 : n * (i + 1) ≤ n * t := Nat.mul_le_mul le_rfl (by omega)
  have h2 : n * (i + 1) / t ≤ n * t / t := Nat.div_le_div_right h1
  rwa [Nat.mul_div_cancel _ ht] at h2

/-! ## Claim C4 -/

/-- Claim C4: for any requested key set whose sorted deduplicated form
has `n > 0` elements and any requested parallelism `P > 0`, the read
path creates exactly `min P n` sources; source `i` covers the
contiguous index range `[n*i/t, n*(i+1)/t)` of the sorted deduplicated
sequence (`t = min P n`); the slices are pairwise disjoint, each of
near-equal size (between `n/t` and `n/t + 1` keys), and their
concatenation is exactly the sorted deduplicated key sequence, covering
every requested key exactly once. -/
theorem read_slices_partition (keys : List Nat) (P : Nat)
    (hk : keys ≠ []) (hP : 0 < P) :
    (readSlices keys P).length = min P (sortDedup keys).length ∧
    (∀ i, i < min P (sortDedup keys).length →
      (readSlices keys P)[i]? = some
        (((sortDedup keys).take
            ((sortDedup keys).length * (i + 1) / min P (sortDedup keys).length)).drop
          ((sortDedup keys).length * i / min P (sortDedup keys).length))) ∧
    (readSlices keys P).flatten = sortDedup keys ∧
    List.Pairwise List.Disjoint (readSlices keys P) ∧
    (∀ s ∈ readSlices keys P,
      (sortDedup keys).length / min P (sortDedup keys).length ≤ s.length ∧
      s.length ≤ (sortDedup keys).length / min P (sortDedup keys).length + 1) ∧
    (readSlices keys P).flatten.Nodup ∧
    (∀ x, x ∈ (readSlices keys P).flatten ↔ x ∈ keys) := by
  have hn : 0 < (sortDedup keys).length :=
    List.length_pos.mpr (sortDedup_ne_nil keys hk)
  have ht : 0 < min P (sortDedup keys).length := lt_min hP hn
  have hdef : readSlices keys P = (List.range (min P (sortDedup keys).length)).map
      (fun i => ((sortDedup keys).take
          ((sortDedup keys).length * (i + 1) / min P (sortDedup keys).length)).drop
        ((sortDedup keys).length * i / min P (sortDedup keys).length)) := by
    unfold readSlices
    rw [if_neg hk]
  have hflat : (readSlices keys P).flatten = sortDedup keys := by
    rw [hdef]
    exact slices_flatten (sortDedup keys) _ ht
  have hndflat : (readSlices keys P).flatten.Nodup := by
    rw [hflat]
    exact sortDedup_nodup keys
  refine ⟨?_, ?_, hflat, ?_, ?_, hndflat, ?_⟩
  · rw [hdef, List.length_map, List.length_range]
  · intro i hi
    rw [hdef, List.getElem?_map, List.getElem?_range hi]
    rfl
  · exact (List.nodup_flatten.mp hndflat).2
  · intro s hs
    rw [hdef, List.mem_map] at hs
    obtain ⟨i, hir, hsi⟩ := hs
    rw [List.mem_range] at hir
    have hbounds := slice_size_bounds (sortDedup keys).length
      (min P (sortDedup keys).length) i ht
    have hble := slice_bound_le (sortDedup keys).length
      (min P (sortDedup keys).length) i ht hir
    rw [← hsi, List.length_drop, List.length_take,
      Nat.min_eq_left hble]
    exact hbounds
  · intro x
    rw [hflat, mem_sortDedup]

/-- Witness for `read_slices_partition`: keys `[5, 3, 5, 1]` with
parallelism `3` — the deduplicated sorted key set `[1, 3, 5]` is split
into three slices that together cover it exactly once. -/
theorem read_slices_partition_witness :
    (readSlices [5, 3, 5, 1] 3).flatten = sortDedup [5, 3, 5, 1] :=
  (read_slices_partition [5, 3, 5, 1] 3 (by decide) (by decide)).2.2.1

/-! ## Helper lemmas: fetch-by-keys -/

theorem alookup_isSome_iff :
    ∀ (st : List (Nat × Nat)) (k : Nat),
      (alookup st k).isSome ↔ k ∈ st.map Prod.fst
  | [], k => by simp [alookup]
  | (k0, v0) :: rest, k => by
    by_cases hk : k = k0 <;>
      simp [alookup, hk, alookup_isSome_iff rest k]

theorem alookup_eq_some_iff :
    ∀ (st : List (Nat × Nat)), (st.map Prod.fst).Nodup →
      ∀ (k v : Nat), (alookup st k = some v ↔ (k, v) ∈ st)
  | [], _, k, v => by simp [alookup]
  | (k0, v0) :: rest, hnd, k, v => by
    rw [List.map_cons, List.nodup_cons] at hnd
    by_cases hk : k = k0
    · subst hk
      rw [alookup, if_pos rfl]
      simp only [List.mem_cons, Prod.mk.injEq, true_and]
      constructor
      · intro h
        exact Or.inl (Option.some.inj h).symm
      · rintro (h | h)
        · rw [h]
        · exact absurd (List.mem_map.mpr ⟨(k, v), h, rfl⟩) hnd.1
    · rw [alookup, if_neg hk,
        alookup_eq_some_iff rest hnd.2 k v]
      simp [List.mem_cons, Prod.mk.injEq, hk]

theorem getRows_append (st : List (Nat × Nat)) (meta : Nat)
    (l1 l2 : List Nat) :
    getRows st meta (l1 ++ l2) = getRows st meta l1 ++ getRows st meta l2 :=
  List.filterMap_append l1 l2 _

theorem getRows_flatten (st : List (Nat × Nat)) (meta : Nat) :
    ∀ (L : List (List Nat)),
      (L.map (getRows st meta)).flatten = getRows st meta L.flatten
  | [] => rfl
  | l :: rest => by
    simp only [List.map_cons, List.flatten_cons]
    rw [getRows_flatten st meta rest]
    rw [getRows_append]

theorem chunksOf_flatten : ∀ (b : Nat) (l : List Nat), 0 < b →
    (chunksOf b l).flatten = l
  | b, l, hb => by
    by_cases hl : l = []
    · subst hl
      rw [chunksOf]
      simp
    · rw [chunksOf, dif_neg (not_or.mpr ⟨by omega, hl⟩)]
      rw [List.flatten_cons, chunksOf_flatten b (l.drop b) hb]
      exact List.take_append_drop b l
termination_by b l _ => l.length
decreasing_by
  simp only [List.length_drop]
  have := List.length_pos.mpr hl
  omega

theorem sourceRows_eq_getRows (st : List (Nat × Nat)) (meta b : Nat)
    (hb : 0 < b) (slice : List Nat) :
    sourceRows st meta b slice = getRows st meta slice := by
  unfold sourceRows
  rw [getRows_flatten, chunksOf_flatten b slice hb]

theorem mem_getRows (st : List (Nat × Nat)) (meta : Nat) (L : List Nat)
    (kv : Nat × Nat) :
    kv ∈ getRows st meta L ↔
      kv.1 ∈ L ∧ kv.1 ≠ meta ∧ alookup st kv.1 = some kv.2 := by
  unfold getRows
  rw [List.mem_filterMap]
  constructor
  · rintro ⟨a, ha, hfa⟩
    by_cases hm : a = meta
    · rw [if_pos hm] at hfa
      exact absurd hfa (by simp)
    · rw [if_neg hm] at hfa
      cases hv : alookup st a with
      | none =>
        rw [hv] at hfa
        simp at hfa
      | some v =>
        rw [hv] at hfa
        have : (a, v) = kv := Option.some.inj hfa
        rw [← this]
        exact ⟨ha, hm, hv⟩
  · rintro ⟨h1, h2, h3⟩
    refine ⟨kv.1, h1, ?_⟩
    rw [if_neg h2, h3]

theorem getRows_map_fst (st : List (Nat × Nat)) (meta : Nat)
    (L : List Nat)
    (h : ∀ k ∈ L, k = meta ∨ (alookup st k).isSome) :
    (getRows st meta L).map Prod.fst
      = L.filter (fun k => k ≠ meta) := by
  induction L with
  | nil => rfl
  | cons k rest ih =>
    have hrest := ih (fun x hx => h x (List.mem_cons_of_mem _ hx))
    by_cases hk : k = meta
    · simp only [getRows, List.filterMap_cons, if_pos hk] at hrest ⊢
      rw [List.filter_cons_of_neg (by simp [hk])]
      exact hrest
    · rcases h k (by simp) with h1 | h1
      · exact absurd h1 hk
      · obtain ⟨v, hv⟩ := Option.isSome_iff_exists.mp h1
        simp only [getRows, List.filterMap_cons, if_neg hk, hv] at hrest ⊢
        rw [List.filter_cons_of_pos (by simp [hk]), List.map_cons]
        rw [hrest]

/-! ## Claim C3 -/

/-- Claim C3: a full scan over a table storing `M` distinct data keys
(the root path's children being the metadata node plus the data nodes),
with any parallelism `P > 0` and block size `B > 0`, produces across
all parallel sources exactly `M` rows with no duplicates: every stored
pair appears exactly once, no key is omitted, and the set of keys read
is exactly the children of the root path minus the metadata node. -/
theorem full_scan_rows_exact (st : List (Nat × Nat)) (meta : Nat)
    (P B : Nat) (hnd : (st.map Prod.fst).Nodup)
    (hmeta : meta ∉ st.map Prod.fst) (hP : 0 < P) (hB : 0 < B) :
    (fullScanRows st meta P B).length = st.length ∧
    (fullScanRows st meta P B).Nodup ∧
    (∀ kv : Nat × Nat, kv ∈ fullScanRows st meta P B ↔ kv ∈ st) ∧
    ((fullScanRows st meta P B).map Prod.fst).Perm (st.map Prod.fst) := by
  have hchild : (meta :: st.map Prod.fst) ≠ [] := by simp
  have hchildnd : (meta :: st.map Prod.fst).Nodup :=
    List.nodup_cons.mpr ⟨hmeta, hnd⟩
  have hLp : (sortDedup (meta :: st.map Prod.fst)).Perm
      (meta :: st.map Prod.fst) :=
    sortDedup_perm_of_nodup _ hchildnd
  have hLnd : (sortDedup (meta :: st.map Prod.fst)).Nodup :=
    sortDedup_nodup _
  have h1 : fullScanRows st meta P B
      = getRows st meta (sortDedup (meta :: st.map Prod.fst)) := by
    unfold fullScanRows
    have hsr : sourceRows st meta B = getRows st meta :=
      funext (sourceRows_eq_getRows st meta B hB)
    rw [hsr]
    rw [getRows_flatten]
    congr 1
    unfold readSlices
    rw [if_neg hchild]
    exact slices_flatten (sortDedup (meta :: st.map Prod.fst)) _
      (lt_min hP (List.length_pos.mpr (sortDedup_ne_nil _ hchild)))
  have hmemL : ∀ k ∈ sortDedup (meta :: st.map Prod.fst),
      k = meta ∨ (alookup st k).isSome := by
    intro k hkL
    rcases List.mem_cons.mp (hLp.mem_iff.mp hkL) with h | h
    · exact Or.inl h
    · exact Or.inr ((alookup_isSome_iff st k).mpr h)
  have hfst : (fullScanRows st meta P B).map Prod.fst
      = (sortDedup (meta :: st.map Prod.fst)).filter (fun k => k ≠ meta) := by
    rw [h1]
    exact getRows_map_fst st meta _ hmemL
  have hfilter_perm : ((sortDedup (meta :: st.map Prod.fst)).filter
      (fun k => k ≠ meta)).Perm (st.map Prod.fst) := by
    have hp := hLp.filter (fun k => decide (k ≠ meta))
    have hcf : (meta :: st.map Prod.fst).filter (fun k => k ≠ meta)
        = st.map Prod.fst := by
      rw [List.filter_cons_of_neg (by simp)]
      apply List.filter_eq_self.mpr
      intro x hx
      simp only [ne_eq, decide_not, Bool.not_eq_eq_eq_not, Bool.not_true,
        decide_eq_false_iff_not]
      intro he
      exact hmeta (he ▸ hx)
    rw [hcf] at hp
    exact hp
  have hfstperm : ((fullScanRows st meta P B).map Prod.fst).Perm
      (st.map Prod.fst) := by
    rw [hfst]
    exact hfilter_perm
  have hfstnd : ((fullScanRows st meta P B).map Prod.fst).Nodup :=
    hfstperm.nodup_iff.mpr hnd
  refine ⟨?_, List.Nodup.of_map _ hfstnd, ?_, hfstperm⟩
  · have := hfstperm.length_eq
    rwa [List.length_map, List.length_map] at this
  · intro kv
    rw [h1, mem_getRows]
    constructor
    · rintro ⟨_, _, h3⟩
      exact (alookup_eq_some_iff st hnd kv.1 kv.2).mp h3
    · intro hkv
      have h3 : alookup st kv.1 = some kv.2 :=
        (alookup_eq_some_iff st hnd kv.1 kv.2).mpr hkv
      have hk1 : kv.1 ∈ st.map Prod.fst :=
        List.mem_map.mpr ⟨kv, hkv, rfl⟩
      refine ⟨hLp.mem_iff.mpr (List.mem_cons_of_mem _ hk1), ?_, h3⟩
      intro he
      exact hmeta (he ▸ hk1)

/-- Witness for `full_scan_rows_exact`: a table storing
`{3 ↦ 30, 1 ↦ 10}` with metadata node `7`, scanned with parallelism `2`
and block size `1`, yields exactly two rows. -/
theorem full_scan_rows_exact_witness :
    (fullScanRows [(3, 30), (1, 10)] 7 2 1).length
      = [((3 : Nat), (30 : Nat)), (1, 10)].length :=
  (full_scan_rows_exact [(3, 30), (1, 10)] 7 2 1
    (by decide) (by decide) (by decide) (by decide)).1

/-! ## Helper lemmas: null-map fetch -/

theorem getRows_length_found (st : List (Nat × Nat)) (meta : Nat) :
    ∀ (ks : List Nat), meta ∉ ks →
      (getRows st meta ks).length
        = (ks.filter (fun k => (alookup st k).isSome)).length
  | [], _ => rfl
  | k :: rest, h => by
    have hk : k ≠ meta := fun he => h (by simp [he])
    have ih := getRows_length_found st meta rest
      (fun hx => h (List.mem_cons_of_mem _ hx))
    simp only [getRows, List.filterMap_cons, if_neg hk] at ih ⊢
    cases hv : alookup st k with
    | some v =>
      rw [List.filter_cons_of_pos (by simp [hv])]
      simp only [List.length_cons, ih]
    | none =>
      rw [List.filter_cons_of_neg (by simp [hv])]
      exact ih

theorem getWithNulls_lengths (st : List (Nat × Nat)) (meta dk dv : Nat) :
    ∀ (ks : List Nat), meta ∉ ks →
      (getWithNulls st meta dk dv ks).1.length = ks.length ∧
      (getWithNulls st meta dk dv ks).2.length = ks.length
  | [], _ => ⟨rfl, rfl⟩
  | k :: rest, h => by
    have hk : k ≠ meta := fun he => h (by simp [he])
    have ih := getWithNulls_lengths st meta dk dv rest
      (fun hx => h (List.mem_cons_of_mem _ hx))
    simp only [getWithNulls, if_neg hk]
    cases hv : alookup st k <;>
      simp only [List.length_cons, ih.1, ih.2, and_self]

theorem getWithNulls_get (st : List (Nat × Nat)) (meta dk dv : Nat) :
    ∀ (ks : List Nat), meta ∉ ks → ∀ (i : Nat) (k : Nat), ks[i]? = some k →
      ((alookup st k = none →
        (getWithNulls st meta dk dv ks).1[i]? = some (dk, dv) ∧
        (getWithNulls st meta dk dv ks).2[i]? = some 0) ∧
      (∀ v, alookup st k = some v →
        (getWithNulls st meta dk dv ks).1[i]? = some (k, v) ∧
        (getWithNulls st meta dk dv ks).2[i]? = some 1))
  | [], _, i, k, hik => by simp at hik
  | k0 :: rest, h, i, k, hik => by
    have hk0 : k0 ≠ meta := fun he => h (by simp [he])
    have hrest : meta ∉ rest := fun hx => h (List.mem_cons_of_mem _ hx)
    cases i with
    | zero =>
      rw [List.getElem?_cons_zero] at hik
      have hkk : k = k0 := (Option.some.inj hik).symm
      subst hkk
      simp only [getWithNulls, if_neg hk0]
      constructor
      · intro hv
        rw [hv]
        simp
      · intro v hv
        rw [hv]
        simp
    | succ j =>
      rw [List.getElem?_cons_succ] at hik
      have ih := getWithNulls_get st meta dk dv rest hrest j k hik
      simp only [getWithNulls, if_neg hk0]
      cases hv0 : alookup st k0 with
      | some v0 =>
        simpa only [List.getElem?_cons_succ] using ih
      | none =>
        simpa only [List.getElem?_cons_succ] using ih

/-! ## Claim C6 -/

/-- Claim C6, counterexample to the claim as stated: fetching keys
`[0, 1]` against a store holding only key `0` (metadata node `5`,
column defaults `0`), the null-indicator array is `[1, 0]`: the
existing key's entry is `1` (true) and the missing key's entry is `0`
(false) — the opposite polarity of the claim, which predicts `[0, 1]`.
The array is a found-mask, initialized to `1` and zeroed at missing
positions. -/
theorem getWithNulls_polarity_cex :
    (getWithNulls [(0, 7)] 5 0 0 [0, 1]).2 = [1, 0] ∧
    (getWithNulls [(0, 7)] 5 0 0 [0, 1]).2 ≠ [0, 1] := by decide

/-- Claim C6, amended: with null-reporting enabled, each existing key
contributes a row equal to its stored value with its null-indicator
entry equal to `1` (true), and each missing key contributes a row of
column default values with its null-indicator entry equal to `0`
(false); with null-reporting disabled, missing keys contribute no row
at all (every produced row carries a stored value, and the row count is
the number of found keys). -/
theorem getWithNulls_spec (st : List (Nat × Nat)) (meta dk dv : Nat)
    (ks : List Nat) (hm : meta ∉ ks) :
    (getWithNulls st meta dk dv ks).1.length = ks.length ∧
    (getWithNulls st meta dk dv ks).2.length = ks.length ∧
    (∀ (i k : Nat), ks[i]? = some k →
      (∀ v, alookup st k = some v →
        (getWithNulls st meta dk dv ks).1[i]? = some (k, v) ∧
        (getWithNulls st meta dk dv ks).2[i]? = some 1) ∧
      (alookup st k = none →
        (getWithNulls st meta dk dv ks).1[i]? = some (dk, dv) ∧
        (getWithNulls st meta dk dv ks).2[i]? = some 0)) ∧
    (∀ kv : Nat × Nat, kv ∈ getRows st meta ks →
      alookup st kv.1 = some kv.2) ∧
    (getRows st meta ks).length
      = (ks.filter (fun k => (alookup st k).isSome)).length := by
  obtain ⟨hl1, hl2⟩ := getWithNulls_lengths st meta dk dv ks hm
  refine ⟨hl1, hl2, ?_, ?_, getRows_length_found st meta ks hm⟩
  · intro i k hik
    have h := getWithNulls_get st meta dk dv ks hm i k hik
    exact ⟨h.2, h.1⟩
  · intro kv hkv
    exact ((mem_getRows st meta ks kv).mp hkv).2.2

/-- Witness for `getWithNulls_spec`: store `{0 ↦ 7}`, metadata node
`5`, fetched keys `[0, 1]` — both output arrays have one entry per
requested key. -/
theorem getWithNulls_spec_witness :
    (getWithNulls [(0, 7)] 5 0 0 [0, 1]).1.length
      = ([0, 1] : List Nat).length :=
  (getWithNulls_spec [(0, 7)] 5 0 0 [0, 1] (by decide)).1

end KeeperMap
